import Mathlib

/-!
Verification of the random-walk / waiting-time simulation scripts.

The pseudo-random source (numpy's global generator) is modelled as an
abstract stream of Boolean draws together with the position of the next
draw; `np.random.choice([-1, 1], ...)` consumes one Boolean per element
in C (row-major) order and maps it to -1 or +1.  Reseeding replaces the
stream by the one a seed determines (an arbitrary function
`Int → Nat → Bool`, since the concrete Mersenne-Twister stream is
library code outside this repository) and resets the position to 0.
-/

/-- One draw of np.random.choice([-1, 1]): a Boolean from the underlying
stream mapped to +1 or -1. -/
def stepVal (b : Bool) : Int := if b then 1 else -1

/-- The global pseudo-random generator state: the stream of Boolean draws
and the position of the next draw. -/
structure RNG where
  stream : Nat → Bool
  pos : Nat

/-- Sum of `n` consecutive ±1 draws taken from stream `g` starting at
position `start`: one row of the step tensor reduced by np.sum along the
step axis. -/
def trialSum (g : Nat → Bool) (start n : Nat) : Int :=
  ((List.range n).map (fun j => stepVal (g (start + j)))).sum

/-- One axis of final displacements: trial `i` consumes the draws in
positions `[base + i*n, base + (i+1)*n)` and is reduced to their sum. -/
def axisFinals (g : Nat → Bool) (base trials n : Nat) : List Int :=
  (List.range trials).map (fun i => trialSum g (base + i * n) n)

/-- Effect of the two lines
`if seed is not None: np.random.seed(seed)` on the generator state:
a supplied seed deterministically replaces the stream and resets the
position; otherwise the ambient state is kept. -/
def seededState (seed : Option Int) (seedStream : Int → Nat → Bool) (st : RNG) : RNG :=
  match seed with
  | some s => { stream := seedStream s, pos := 0 }
  | none => st

/-- random_walk_displacement(num_steps, num_simulations, seed) of
src/random_walk_displacement.py.  Validates both counts (in the source
the `isinstance(_, int)` half of each test is carried by the `Int` type
of the embedding), reseeds when a seed is supplied, draws the
`(2, num_simulations, num_steps)` step tensor with
np.random.choice([-1, 1]) — row x first, then row y, in C order — and
returns the sums along the step axis together with the advanced
generator state.  A raised ValueError is the `.error` case and leaves
the generator state untouched. -/
def random_walk_displacement (num_steps num_simulations : Int) (seed : Option Int)
    (seedStream : Int → Nat → Bool) (st : RNG) :
    Except String (List Int × List Int) × RNG :=
  if num_steps ≤ 0 then (.error "步数必须是正整数", st)
  else if num_simulations ≤ 0 then (.error "模拟次数必须是正整数", st)
  else
    let st1 := seededState seed seedStream st
    let n := num_steps.toNat
    let s := num_simulations.toNat
    let xs := axisFinals st1.stream st1.pos s n
    let ys := axisFinals st1.stream (st1.pos + s * n) s n
    (.ok (xs, ys), { stream := st1.stream, pos := st1.pos + 2 * (s * n) })

namespace EndpointsAnalysis

/-- random_walk_finals(num_steps, num_walks) of src/endpoints_analysis.py:
two separate np.random.choice([-1, 1], size=(num_walks, num_steps))
draws (x first, then y), each row summed along axis 1; returns
((x_finals, y_finals), advanced position). -/
def random_walk_finals (num_steps num_walks : Nat) (g : Nat → Bool) (pos : Nat) :
    (List Int × List Int) × Nat :=
  let steps_x := (List.range num_walks).map (fun i =>
    (List.range num_steps).map (fun j => stepVal (g (pos + (i * num_steps + j)))))
  let pos2 := pos + num_walks * num_steps
  let steps_y := (List.range num_walks).map (fun i =>
    (List.range num_steps).map (fun j => stepVal (g (pos2 + (i * num_steps + j)))))
  let x_finals := steps_x.map List.sum
  let y_finals := steps_y.map List.sum
  ((x_finals, y_finals), pos2 + num_walks * num_steps)

end EndpointsAnalysis

namespace MeanSquareDisplacement

/-- random_walk_finals(num_steps=1000, num_walks=1000) of
src/mean_square_displacement.py: apart from the default argument values
its body is line-for-line the one in endpoints_analysis.py — two
np.random.choice([-1, 1], size=(num_walks, num_steps)) draws summed
along axis 1. -/
def random_walk_finals (num_steps num_walks : Nat) (g : Nat → Bool) (pos : Nat) :
    (List Int × List Int) × Nat :=
  let steps_x := (List.range num_walks).map (fun i =>
    (List.range num_steps).map (fun j => stepVal (g (pos + (i * num_steps + j)))))
  let pos2 := pos + num_walks * num_steps
  let steps_y := (List.range num_walks).map (fun i =>
    (List.range num_steps).map (fun j => stepVal (g (pos2 + (i * num_steps + j)))))
  let x_finals := steps_x.map List.sum
  let y_finals := steps_y.map List.sum
  ((x_finals, y_finals), pos2 + num_walks * num_steps)

end MeanSquareDisplacement

/-! Basic facts about the draw-and-reduce primitives. -/

theorem stepVal_eq_one_or_neg_one (b : Bool) : stepVal b = 1 ∨ stepVal b = -1 := by
  cases b <;> simp [stepVal]

theorem trialSum_zero (g : Nat → Bool) (start : Nat) : trialSum g start 0 = 0 := by
  simp [trialSum]

theorem trialSum_succ (g : Nat → Bool) (start n : Nat) :
    trialSum g start (n + 1) = trialSum g start n + stepVal (g (start + n)) := by
  simp [trialSum, List.range_succ]

theorem trialSum_bounds (g : Nat → Bool) (start n : Nat) :
    -(n : Int) ≤ trialSum g start n ∧ trialSum g start n ≤ (n : Int) := by
  induction n with
  | zero => simp [trialSum_zero]
  | succ k ih =>
    rw [trialSum_succ]
    rcases stepVal_eq_one_or_neg_one (g (start + k)) with h | h <;>
      rw [h] <;> push_cast <;> omega

theorem trialSum_emod_two (g : Nat → Bool) (start n : Nat) :
    trialSum g start n % 2 = (n : Int) % 2 := by
  induction n with
  | zero => simp [trialSum_zero]
  | succ k ih =>
    rw [trialSum_succ]
    rcases stepVal_eq_one_or_neg_one (g (start + k)) with h | h <;>
      rw [h] <;> push_cast <;> omega

theorem trialSum_one (g : Nat → Bool) (start : Nat) :
    trialSum g start 1 = stepVal (g start) := by
  rw [trialSum_succ, trialSum_zero, zero_add, Nat.add_zero]

theorem axisFinals_length (g : Nat → Bool) (base trials n : Nat) :
    (axisFinals g base trials n).length = trials := by
  simp [axisFinals]

theorem mem_axisFinals (g : Nat → Bool) (base trials n : Nat) (d : Int) :
    d ∈ axisFinals g base trials n ↔
      ∃ i, i < trials ∧ trialSum g (base + i * n) n = d := by
  simp [axisFinals, List.mem_map]

theorem axisFinals_getD (g : Nat → Bool) (base trials n i : Nat) (hi : i < trials) :
    (axisFinals g base trials n).getD i 0 = trialSum g (base + i * n) n := by
  have hlen : i < (axisFinals g base trials n).length := by
    rw [axisFinals_length]; exact hi
  rw [List.getD_eq_getElem _ _ hlen]
  simp [axisFinals]

/-- On valid inputs random_walk_displacement succeeds and its result is
the draw-then-reduce of the (possibly reseeded) stream: the x row sums
the first `s*n` draws in blocks of `n`, the y row the next `s*n`, and
the generator advances by `2*s*n` draws. -/
theorem random_walk_displacement_ok (ns sim : Int) (seed : Option Int)
    (f : Int → Nat → Bool) (st : RNG) (hn : 0 < ns) (hs : 0 < sim) :
    random_walk_displacement ns sim seed f st =
      (.ok (axisFinals (seededState seed f st).stream (seededState seed f st).pos
              sim.toNat ns.toNat,
            axisFinals (seededState seed f st).stream
              ((seededState seed f st).pos + sim.toNat * ns.toNat) sim.toNat ns.toNat),
       { stream := (seededState seed f st).stream,
         pos := (seededState seed f st).pos + 2 * (sim.toNat * ns.toNat) }) := by
  unfold random_walk_displacement
  rw [if_neg (by omega), if_neg (by omega)]

/-! The statistics-printing consumer of src/random_walk_displacement.py. -/

/-- np.mean of an integer array, computed exactly over ℚ (the source
prints it through floating point; the frame claim below is about the
array, not the printed digits). -/
def npMean (l : List Int) : ℚ := (l.sum : ℚ) / l.length

/-- np.var (population variance, ddof = 0) of an integer array, exact
over ℚ. -/
def npVar (l : List Int) : ℚ :=
  ((l.map (fun x => ((x : ℚ) - npMean l) ^ 2)).sum) / l.length

/-- np.sum(final_displacements**2, axis=0) seen through
np.linalg.norm(final_displacements, axis=0): the per-trial squared
magnitudes x_i^2 + y_i^2 whose square roots the norm takes.  The square
root itself lives in the excluded floating-point layer, so the printed
magnitude lines below carry this exact list. -/
def magSquares (d : List Int × List Int) : List Int :=
  (d.1.zip d.2).map (fun p => p.1 ^ 2 + p.2 ^ 2)

/-- One print call of print_statistics, carrying the exact data the
f-string formats (floating-point rendering excluded). -/
inductive PrintLine where
  | rule : PrintLine
  | title : PrintLine
  | simCount : Nat → PrintLine
  | stepCount : Int → PrintLine
  | axisMean : Nat → ℚ → PrintLine
  | axisVar : Nat → ℚ → Int → PrintLine
  | magnitudeMean : List Int → PrintLine
  | magnitudeVar : List Int → PrintLine

/-- print_statistics(final_displacements, num_steps) of
src/random_walk_displacement.py.  The (2, N) array is the pair of its
two rows; the function is its sequence of print statements, every one a
read: shape[1], each row's mean and variance, and the mean and variance
of the per-trial magnitudes.  The array state after the body is
returned alongside the output; no statement of the body writes to it. -/
def print_statistics (final_displacements : List Int × List Int) (num_steps : Int) :
    List PrintLine × (List Int × List Int) :=
  ([.rule, .title, .rule,
    .simCount final_displacements.1.length,
    .stepCount num_steps,
    .axisMean 0 (npMean final_displacements.1),
    .axisVar 0 (npVar final_displacements.1) num_steps, .rule,
    .axisMean 1 (npMean final_displacements.2),
    .axisVar 1 (npVar final_displacements.2) num_steps, .rule,
    .magnitudeMean (magSquares final_displacements),
    .magnitudeVar (magSquares final_displacements), .rule],
   final_displacements)

/-! The waiting-time computation of src/waiting_times.py. -/

/-- Helper of np.nonzero: the indices (offset by `i`) of the nonzero
entries of the list, in ascending order. -/
def nonzeroAux : List Nat → Nat → List Nat
  | [], _ => []
  | v :: rest, i =>
    if v = 0 then nonzeroAux rest (i + 1) else i :: nonzeroAux rest (i + 1)

/-- np.nonzero(coin_sequence)[0]: the positions of the nonzero entries,
ascending. -/
def nonzero (l : List Nat) : List Nat := nonzeroAux l 0

/-- np.diff on an (ascending) index array: successive differences, as
signed integers. -/
def npDiff (l : List Nat) : List Int :=
  (l.zip l.tail).map (fun p => (p.2 : Int) - (p.1 : Int))

/-- calculate_waiting_times(coin_sequence) of src/waiting_times.py:
indices of the heads, the empty array when there are fewer than two,
otherwise the successive index differences minus one. -/
def calculate_waiting_times (coin_sequence : List Nat) : List Int :=
  let head_indices := nonzero coin_sequence
  if head_indices.length < 2 then []
  else (npDiff head_indices).map (fun d => d - 1)

/-! Name resolution in src/poisson_simulation.py. -/

/-- A Python runtime error, here only the NameError a lookup of an
unbound name raises. -/
inductive PyError where
  | nameError : String → PyError

/-- The names bound at the top level of src/poisson_simulation.py once
the module is loaded: its six imports and its three function
definitions.  No statement of the module binds `p_head` at module
scope (it occurs only as a parameter name of simulate_coin_flips and as
a keyword in a call). -/
def poissonGlobals : List String :=
  ["np", "plt", "factorial", "poisson", "time", "MaxNLocator",
   "plot_poisson_pmf", "simulate_coin_flips", "compare_simulation_theory"]

/-- Local names of compare_simulation_theory that are bound before its
line 68 executes: the three parameters and start_time. -/
def compareSimulationTheoryLocals : List String :=
  ["n_experiments", "lambda_param", "seed", "start_time"]

/-- compare_simulation_theory(n_experiments, lambda_param, seed) of
src/poisson_simulation.py.  Its first statement reads the clock; its
second evaluates `simulate_coin_flips(n_experiments, lambda_param/p_head,
p_head=0.08, seed=seed)`, which resolves the free name `p_head` against
the local scope and then the module globals.  When the lookup fails the
call raises NameError before any sampling; the success branch (dead for
this module's bindings) is not modelled further. -/
def compare_simulation_theory (n_experiments : Int) (lambda_param : ℚ)
    (seed : Option Int) : Except PyError Unit :=
  if "p_head" ∈ compareSimulationTheoryLocals ∨ "p_head" ∈ poissonGlobals then
    .ok ()
  else
    .error (.nameError "p_head")

/-- Success case of random_walk_displacement, first component only. -/
theorem random_walk_displacement_fst_ok (ns sim : Int) (seed : Option Int)
    (f : Int → Nat → Bool) (st : RNG) (hn : 0 < ns) (hs : 0 < sim) :
    (random_walk_displacement ns sim seed f st).1 =
      .ok (axisFinals (seededState seed f st).stream (seededState seed f st).pos
             sim.toNat ns.toNat,
           axisFinals (seededState seed f st).stream
             ((seededState seed f st).pos + sim.toNat * ns.toNat) sim.toNat ns.toNat) := by
  rw [random_walk_displacement_ok ns sim seed f st hn hs]

/-- C1: on every valid call, each returned final displacement (x and y,
for every trial index) is the sum of a list of `num_steps` values each
equal to +1 or -1, one drawn step sequence per trial per axis. -/
theorem random_walk_displacement_sum_of_steps (ns sim : Int) (seed : Option Int)
    (f : Int → Nat → Bool) (st : RNG) (hn : 0 < ns) (hs : 0 < sim)
    (xs ys : List Int)
    (hok : (random_walk_displacement ns sim seed f st).1 = .ok (xs, ys))
    (i : Nat) (hi : i < sim.toNat) :
    ∃ l m : List Int,
      l.length = ns.toNat ∧ m.length = ns.toNat ∧
      (∀ v ∈ l, v = 1 ∨ v = -1) ∧ (∀ v ∈ m, v = 1 ∨ v = -1) ∧
      xs.getD i 0 = l.sum ∧ ys.getD i 0 = m.sum := by
  rw [random_walk_displacement_fst_ok ns sim seed f st hn hs] at hok
  simp only [Except.ok.injEq, Prod.mk.injEq] at hok
  obtain ⟨hx, hy⟩ := hok
  subst hx; subst hy
  set g := (seededState seed f st).stream with hg
  set p := (seededState seed f st).pos with hp
  refine ⟨(List.range ns.toNat).map (fun j => stepVal (g (p + i * ns.toNat + j))),
          (List.range ns.toNat).map
            (fun j => stepVal (g (p + sim.toNat * ns.toNat + i * ns.toNat + j))),
          ?_, ?_, ?_, ?_, ?_, ?_⟩
  · simp
  · simp
  · intro v hv
    obtain ⟨j, _, rfl⟩ := List.mem_map.mp hv
    exact stepVal_eq_one_or_neg_one _
  · intro v hv
    obtain ⟨j, _, rfl⟩ := List.mem_map.mp hv
    exact stepVal_eq_one_or_neg_one _
  · rw [axisFinals_getD g p sim.toNat ns.toNat i hi]
    rfl
  · rw [axisFinals_getD g (p + sim.toNat * ns.toNat) sim.toNat ns.toNat i hi]
    rfl

/-- Witness for C1 at num_steps = 2, num_simulations = 1, no seed, the
all-ones stream: the single trial's x and y displacements are both 2. -/
theorem random_walk_displacement_sum_of_steps_witness :
    ∃ l m : List Int,
      l.length = (2 : Int).toNat ∧ m.length = (2 : Int).toNat ∧
      (∀ v ∈ l, v = 1 ∨ v = -1) ∧ (∀ v ∈ m, v = 1 ∨ v = -1) ∧
      ([2] : List Int).getD 0 0 = l.sum ∧ ([2] : List Int).getD 0 0 = m.sum :=
  random_walk_displacement_sum_of_steps 2 1 none (fun _ _ => true)
    ⟨fun _ => true, 0⟩ (by decide) (by decide) [2] [2] rfl 0 (by decide)

/-- C2: on every valid call the Walk Sampler returns exactly two
sequences, x finals and y finals, each of length exactly the trial
count; likewise for random_walk_finals of endpoints_analysis.py. -/
theorem walk_sampler_output_lengths (ns sim : Int) (seed : Option Int)
    (f : Int → Nat → Bool) (st : RNG) (g : Nat → Bool) (pos : Nat)
    (hn : 0 < ns) (hs : 0 < sim) :
    (∃ xs ys : List Int,
      (random_walk_displacement ns sim seed f st).1 = .ok (xs, ys) ∧
      xs.length = sim.toNat ∧ ys.length = sim.toNat) ∧
    (EndpointsAnalysis.random_walk_finals ns.toNat sim.toNat g pos).1.1.length
      = sim.toNat ∧
    (EndpointsAnalysis.random_walk_finals ns.toNat sim.toNat g pos).1.2.length
      = sim.toNat := by
  refine ⟨⟨_, _, random_walk_displacement_fst_ok ns sim seed f st hn hs, ?_, ?_⟩, ?_, ?_⟩
  · exact axisFinals_length _ _ _ _
  · exact axisFinals_length _ _ _ _
  · simp [EndpointsAnalysis.random_walk_finals]
  · simp [EndpointsAnalysis.random_walk_finals]

/-- Witness for C2 at num_steps = 1, num_simulations = 2. -/
theorem walk_sampler_output_lengths_witness :
    (∃ xs ys : List Int,
      (random_walk_displacement 1 2 none (fun _ _ => true) ⟨fun _ => true, 0⟩).1
        = .ok (xs, ys) ∧
      xs.length = (2 : Int).toNat ∧ ys.length = (2 : Int).toNat) ∧
    (EndpointsAnalysis.random_walk_finals (1 : Int).toNat (2 : Int).toNat
      (fun _ => true) 0).1.1.length = (2 : Int).toNat ∧
    (EndpointsAnalysis.random_walk_finals (1 : Int).toNat (2 : Int).toNat
      (fun _ => true) 0).1.2.length = (2 : Int).toNat :=
  walk_sampler_output_lengths 1 2 none (fun _ _ => true) ⟨fun _ => true, 0⟩
    (fun _ => true) 0 (by decide) (by decide)

/-- C3: every returned displacement d satisfies |d| ≤ num_steps, has the
parity of num_steps, and for num_steps = 1 is exactly +1 or -1. -/
theorem walk_sampler_bound_parity (ns sim : Int) (seed : Option Int)
    (f : Int → Nat → Bool) (st : RNG) (hn : 0 < ns) (hs : 0 < sim)
    (xs ys : List Int)
    (hok : (random_walk_displacement ns sim seed f st).1 = .ok (xs, ys))
    (d : Int) (hd : d ∈ xs ∨ d ∈ ys) :
    |d| ≤ ns ∧ d % 2 = ns % 2 ∧ (ns = 1 → d = 1 ∨ d = -1) := by
  rw [random_walk_displacement_fst_ok ns sim seed f st hn hs] at hok
  simp only [Except.ok.injEq, Prod.mk.injEq] at hok
  obtain ⟨hx, hy⟩ := hok
  subst hx; subst hy
  set g := (seededState seed f st).stream with hg
  have hstart : ∃ start, trialSum g start ns.toNat = d := by
    rcases hd with hd | hd <;> rw [mem_axisFinals] at hd <;>
      obtain ⟨i, _, hi⟩ := hd <;> exact ⟨_, hi⟩
  obtain ⟨start, rfl⟩ := hstart
  have hb := trialSum_bounds g start ns.toNat
  have hm := trialSum_emod_two g start ns.toNat
  refine ⟨?_, ?_, ?_⟩
  · rw [abs_le]; omega
  · omega
  · intro h1
    subst h1
    have h2 : (1 : Int).toNat = 1 := rfl
    rw [h2, trialSum_one]
    exact stepVal_eq_one_or_neg_one _

/-- Witness for C3 at num_steps = 1, num_simulations = 1, the all-ones
stream, whose single x displacement is 1. -/
theorem walk_sampler_bound_parity_witness :
    |(1 : Int)| ≤ 1 ∧ (1 : Int) % 2 = 1 % 2 ∧
      ((1 : Int) = 1 → (1 : Int) = 1 ∨ (1 : Int) = -1) :=
  walk_sampler_bound_parity 1 1 none (fun _ _ => true) ⟨fun _ => true, 0⟩
    (by decide) (by decide) [1] [1] rfl 1 (Or.inl (by decide))

/-- C4: the ValueError is raised exactly when a count is non-positive
(the non-integer half of the test is carried by the Int type); it names
the first failing count, is raised before any sampling, and the
generator state is returned untouched — the seed is never applied on
that path. -/
theorem random_walk_displacement_error_iff (ns sim : Int) (seed : Option Int)
    (f : Int → Nat → Bool) (st : RNG) :
    (ns ≤ 0 ∨ sim ≤ 0) ↔
      random_walk_displacement ns sim seed f st =
        (.error (if ns ≤ 0 then "步数必须是正整数" else "模拟次数必须是正整数"), st) := by
  constructor
  · intro h
    unfold random_walk_displacement
    by_cases h1 : ns ≤ 0
    · rw [if_pos h1, if_pos h1]
    · rw [if_neg h1, if_pos (by omega), if_neg h1]
  · intro h
    by_cases h1 : ns ≤ 0
    · exact Or.inl h1
    by_cases h2 : sim ≤ 0
    · exact Or.inr h2
    have hfst := congrArg Prod.fst h
    rw [random_walk_displacement_fst_ok ns sim seed f st (by omega) (by omega)] at hfst
    simp at hfst

/-- C5: with a supplied seed the ambient generator state is irrelevant —
two calls with the same configuration and seed return identical output,
because the stream is deterministically reseeded before sampling. -/
theorem random_walk_displacement_seed_deterministic (ns sim : Int) (s : Int)
    (f : Int → Nat → Bool) (st st' : RNG) :
    (random_walk_displacement ns sim (some s) f st).1 =
    (random_walk_displacement ns sim (some s) f st').1 := by
  unfold random_walk_displacement
  by_cases h1 : ns ≤ 0 <;> by_cases h2 : sim ≤ 0 <;>
    simp [h1, h2, seededState]

/-- C7: print_statistics only reads the displacement array: the array
after the call is the array before it. -/
theorem print_statistics_preserves_array (d : List Int × List Int) (ns : Int) :
    (print_statistics d ns).2 = d := rfl

/-- C8: the two copies of random_walk_finals, in endpoints_analysis.py
and mean_square_displacement.py, return identical (x_finals, y_finals)
pairs (and leave the generator at the same position) on the same
arguments and the same underlying draw stream. -/
theorem random_walk_finals_equiv (num_steps num_walks : Nat) (g : Nat → Bool)
    (pos : Nat) :
    EndpointsAnalysis.random_walk_finals num_steps num_walks g pos =
    MeanSquareDisplacement.random_walk_finals num_steps num_walks g pos := rfl

/-- C10: compare_simulation_theory raises NameError on every input: the
free name p_head of its simulate_coin_flips call is bound neither in the
function's scope nor at the module's top level. -/
theorem compare_simulation_theory_raises_name_error (ne : Int) (lp : ℚ)
    (seed : Option Int) :
    compare_simulation_theory ne lp seed = .error (.nameError "p_head") := by
  unfold compare_simulation_theory
  rw [if_neg (by decide)]

/-! Structure of the nonzero index list. -/

theorem mem_nonzeroAux (l : List Nat) (i j : Nat) :
    j ∈ nonzeroAux l i ↔ ∃ k, k < l.length ∧ j = i + k ∧ l.getD k 0 ≠ 0 := by
  induction l generalizing i with
  | nil => simp [nonzeroAux]
  | cons v rest ih =>
    by_cases hv : v = 0
    · subst hv
      rw [show nonzeroAux (0 :: rest) i = nonzeroAux rest (i + 1) from by
        simp [nonzeroAux]]
      rw [ih (i + 1)]
      constructor
      · rintro ⟨k, hk, rfl, hnz⟩
        exact ⟨k + 1, by simpa using hk, by omega,
          by simpa [List.getD_cons_succ] using hnz⟩
      · rintro ⟨k, hk, hj, hnz⟩
        cases k with
        | zero => simp at hnz
        | succ k' =>
          exact ⟨k', by simpa using hk, by omega,
            by simpa [List.getD_cons_succ] using hnz⟩
    · rw [show nonzeroAux (v :: rest) i = i :: nonzeroAux rest (i + 1) from by
        simp [nonzeroAux, hv]]
      rw [List.mem_cons, ih (i + 1)]
      constructor
      · rintro (rfl | ⟨k, hk, rfl, hnz⟩)
        · exact ⟨0, by simp, by omega, by simpa using hv⟩
        · exact ⟨k + 1, by simpa using hk, by omega,
            by simpa [List.getD_cons_succ] using hnz⟩
      · rintro ⟨k, hk, hj, hnz⟩
        cases k with
        | zero => left; omega
        | succ k' =>
          right
          exact ⟨k', by simpa using hk, by omega,
            by simpa [List.getD_cons_succ] using hnz⟩

theorem le_of_mem_nonzeroAux (l : List Nat) (i j : Nat)
    (h : j ∈ nonzeroAux l i) : i ≤ j := by
  obtain ⟨k, _, rfl, _⟩ := (mem_nonzeroAux l i j).mp h
  omega

theorem sorted_nonzeroAux (l : List Nat) (i : Nat) :
    (nonzeroAux l i).Sorted (· < ·) := by
  induction l generalizing i with
  | nil => simp [nonzeroAux]
  | cons v rest ih =>
    by_cases hv : v = 0
    · rw [show nonzeroAux (v :: rest) i = nonzeroAux rest (i + 1) from by
        simp [nonzeroAux, hv]]
      exact ih (i + 1)
    · rw [show nonzeroAux (v :: rest) i = i :: nonzeroAux rest (i + 1) from by
        simp [nonzeroAux, hv]]
      refine List.sorted_cons.mpr ⟨?_, ih (i + 1)⟩
      intro b hb
      have := le_of_mem_nonzeroAux rest (i + 1) b hb
      omega

theorem length_nonzeroAux_count (l : List Nat) (i : Nat)
    (h01 : ∀ v ∈ l, v = 0 ∨ v = 1) :
    (nonzeroAux l i).length = l.count 1 := by
  induction l generalizing i with
  | nil => simp [nonzeroAux]
  | cons v rest ih =>
    have hv := h01 v (List.mem_cons_self v rest)
    have hr : ∀ w ∈ rest, w = 0 ∨ w = 1 := fun w hw =>
      h01 w (List.mem_cons_of_mem v hw)
    rcases hv with rfl | rfl
    · simp [nonzeroAux, ih (i + 1) hr, List.count_cons]
    · simp [nonzeroAux, ih (i + 1) hr, List.count_cons]

theorem npDiff_length (l : List Nat) : (npDiff l).length = l.length - 1 := by
  simp [npDiff, List.length_zip, List.length_tail]

theorem npDiff_getD (l : List Nat) (k : Nat) (hk : k + 1 < l.length) :
    (npDiff l).getD k 0 =
      ((l.getD (k + 1) 0 : Int)) - ((l.getD k 0 : Int)) := by
  induction l generalizing k with
  | nil => simp at hk
  | cons a rest ih =>
    cases rest with
    | nil => simp at hk
    | cons b rest2 =>
      cases k with
      | zero => simp [npDiff]
      | succ k' =>
        have hstep : npDiff (a :: b :: rest2) =
            ((b : Int) - (a : Int)) :: npDiff (b :: rest2) := by
          simp [npDiff]
        rw [hstep, List.getD_cons_succ, ih k' (by simpa using hk)]
        simp [List.getD_cons_succ]

theorem sorted_not_mem_between (idx : List Nat) (hs : idx.Sorted (· < ·))
    (k : Nat) (hk : k + 1 < idx.length) (x : Nat)
    (h1 : idx.getD k 0 < x) (h2 : x < idx.getD (k + 1) 0) : x ∉ idx := by
  intro hx
  have hkk : k < idx.length := by omega
  obtain ⟨m, hm, hmx⟩ := List.getElem_of_mem hx
  rcases Nat.lt_or_ge m (k + 1) with hmk | hmk
  · have hle : idx.getD m 0 ≤ idx.getD k 0 := by
      rcases Nat.eq_or_lt_of_le (Nat.le_of_lt_succ hmk) with rfl | hlt
      · exact le_rfl
      · rw [List.getD_eq_getElem _ _ hm, List.getD_eq_getElem _ _ hkk]
        exact le_of_lt (hs.rel_get_of_lt (a := ⟨m, hm⟩) (b := ⟨k, hkk⟩)
          (by simpa [Fin.lt_def] using hlt))
    rw [List.getD_eq_getElem _ _ hm, hmx] at hle
    omega
  · have hge : idx.getD (k + 1) 0 ≤ idx.getD m 0 := by
      rcases Nat.eq_or_lt_of_le hmk with rfl | hlt
      · exact le_rfl
      · rw [List.getD_eq_getElem _ _ hm, List.getD_eq_getElem _ _ hk]
        exact le_of_lt (hs.rel_get_of_lt (a := ⟨k + 1, hk⟩) (b := ⟨m, hm⟩)
          (by simpa [Fin.lt_def] using hlt))
    rw [List.getD_eq_getElem _ _ hm, hmx] at hge
    omega

/-- C9: on a 0/1 coin sequence calculate_waiting_times returns the empty
array when the sequence has fewer than two 1s, and otherwise exactly
(number of 1s) - 1 values, the k-th being nonnegative and equal to the
number of 0s strictly between the k-th and (k+1)-th head positions. -/
theorem calculate_waiting_times_spec (coin : List Nat)
    (h01 : ∀ v ∈ coin, v = 0 ∨ v = 1) :
    (coin.count 1 < 2 → calculate_waiting_times coin = []) ∧
    (2 ≤ coin.count 1 →
      (calculate_waiting_times coin).length = coin.count 1 - 1 ∧
      ∀ k, k + 1 < coin.count 1 →
        0 ≤ (calculate_waiting_times coin).getD k 0 ∧
        (calculate_waiting_times coin).getD k 0 =
          (((Finset.range coin.length).filter (fun j =>
              (nonzero coin).getD k 0 < j ∧ j < (nonzero coin).getD (k + 1) 0 ∧
              coin.getD j 0 = 0)).card : Int)) := by
  have hlen : (nonzero coin).length = coin.count 1 :=
    length_nonzeroAux_count coin 0 h01
  constructor
  · intro h
    have hlt : (nonzero coin).length < 2 := by omega
    simp [calculate_waiting_times, hlt]
  · intro h
    have hge : ¬ (nonzero coin).length < 2 := by omega
    have hcwt : calculate_waiting_times coin =
        (npDiff (nonzero coin)).map (fun d => d - 1) := by
      simp [calculate_waiting_times, hge]
    refine ⟨?_, ?_⟩
    · rw [hcwt]
      simp [npDiff_length, hlen]
    · intro k hk
      have hk' : k + 1 < (nonzero coin).length := by omega
      have hkk : k < (nonzero coin).length := by omega
      have hmaplen : k < ((npDiff (nonzero coin)).map (fun d => d - 1)).length := by
        simp [npDiff_length]; omega
      have hval : (calculate_waiting_times coin).getD k 0 =
          (((nonzero coin).getD (k + 1) 0 : Int)) -
            (((nonzero coin).getD k 0 : Int)) - 1 := by
        rw [hcwt, List.getD_eq_getElem _ _ hmaplen, List.getElem_map,
          ← List.getD_eq_getElem (npDiff (nonzero coin)) 0
            (by rw [npDiff_length]; omega),
          npDiff_getD _ _ hk']
      have hsort := sorted_nonzeroAux coin 0
      have hab : (nonzero coin).getD k 0 < (nonzero coin).getD (k + 1) 0 := by
        rw [List.getD_eq_getElem _ _ hkk, List.getD_eq_getElem _ _ hk']
        exact hsort.rel_get_of_lt (a := ⟨k, hkk⟩) (b := ⟨k + 1, hk'⟩)
          (by simp [Fin.lt_def])
      have hbmem : (nonzero coin).getD (k + 1) 0 ∈ nonzero coin := by
        rw [List.getD_eq_getElem _ _ hk']
        exact List.getElem_mem _
      have hblt : (nonzero coin).getD (k + 1) 0 < coin.length := by
        obtain ⟨kb, hkb, hjb, _⟩ := (mem_nonzeroAux coin 0 _).mp hbmem
        omega
      have hzero : ∀ j, (nonzero coin).getD k 0 < j →
          j < (nonzero coin).getD (k + 1) 0 → coin.getD j 0 = 0 := by
        intro j hj1 hj2
        by_contra hnz
        have hjlen : j < coin.length := by omega
        have hjmem : j ∈ nonzero coin :=
          (mem_nonzeroAux coin 0 j).mpr ⟨j, hjlen, by omega, hnz⟩
        exact sorted_not_mem_between (nonzero coin) hsort k hk' j hj1 hj2 hjmem
      have hset : (Finset.range coin.length).filter (fun j =>
            (nonzero coin).getD k 0 < j ∧ j < (nonzero coin).getD (k + 1) 0 ∧
            coin.getD j 0 = 0)
          = Finset.Ioo ((nonzero coin).getD k 0) ((nonzero coin).getD (k + 1) 0) := by
        ext j
        simp only [Finset.mem_filter, Finset.mem_range, Finset.mem_Ioo]
        constructor
        · rintro ⟨_, hj1, hj2, _⟩
          exact ⟨hj1, hj2⟩
        · rintro ⟨hj1, hj2⟩
          exact ⟨by omega, hj1, hj2, hzero j hj1 hj2⟩
      refine ⟨by rw [hval]; omega, ?_⟩
      rw [hval, hset, Nat.card_Ioo]
      omega

/-- Witness for C9 on the sequence [1, 0, 0, 1, 1], whose waiting times
are [2, 0]. -/
theorem calculate_waiting_times_spec_witness :
    (([1, 0, 0, 1, 1] : List Nat).count 1 < 2 →
      calculate_waiting_times [1, 0, 0, 1, 1] = []) ∧
    (2 ≤ ([1, 0, 0, 1, 1] : List Nat).count 1 →
      (calculate_waiting_times [1, 0, 0, 1, 1]).length =
        ([1, 0, 0, 1, 1] : List Nat).count 1 - 1 ∧
      ∀ k, k + 1 < ([1, 0, 0, 1, 1] : List Nat).count 1 →
        0 ≤ (calculate_waiting_times [1, 0, 0, 1, 1]).getD k 0 ∧
        (calculate_waiting_times [1, 0, 0, 1, 1]).getD k 0 =
          (((Finset.range ([1, 0, 0, 1, 1] : List Nat).length).filter (fun j =>
              (nonzero [1, 0, 0, 1, 1]).getD k 0 < j ∧
              j < (nonzero [1, 0, 0, 1, 1]).getD (k + 1) 0 ∧
              ([1, 0, 0, 1, 1] : List Nat).getD j 0 = 0)).card : Int)) :=
  calculate_waiting_times_spec [1, 0, 0, 1, 1] (by decide)
